import Mathlib

/-!
Shallow embedding of `src/helpers/data.ts` (the feed-to-state transformation
pipeline of the meeting-directory app) and proofs about it.

Conventions of the embedding:
* JavaScript strings are Lean `String`s; the primitive JS string operations
  used by the source (`trim`, `split` with a one-character separator,
  `toLowerCase`, `replace` with a literal pattern, `endsWith`) are modelled
  as structurally recursive functions over `String.data` so that every
  definition evaluates inside the kernel.
* Exceptions are modelled with `Option`: a JS expression that throws yields
  `none`, and `load` propagates `none` (there is no try/catch around the row
  loop in the source, only around `new URL`).
* A feed row (`data.feed.entry[i]`) is a record of `Option String` fields:
  `none` models an absent nested field, whose access (`['gsx$name']['$t']`)
  throws in JS.
* External capabilities that the source calls but does not define
  (`new URL(...).hostname`, `moment.tz(ts, 'dddd h:mm a', tz)` validity,
  `decodeURIComponent`, `moment.tz.guess()`, `window.location.search`) and
  the configuration constants imported from `./config` (`days`,
  `meetingsPerPage`, `videoServices`) are parameters, collected in `Env`.
  A parsed moment is abstracted as a `Nat`.
* A button's side-effecting `onClick` closure is modelled by the string it
  captures (the url / dial target / email address), stored in `target`.
-/

/-- Character class of JS whitespace as used by `trim` and the `\s` regex
class (ASCII whitespace plus NBSP and BOM). -/
def isJsSpace (c : Char) : Bool :=
  c == ' ' || c == '\t' || c == '\n' || c == '\r' || c == '\x0b' || c == '\x0c' ||
  c == ' ' || c == '﻿'

/-- Model of `String.prototype.trim`: strip whitespace from both ends. -/
def jsTrim (s : String) : String :=
  String.mk (((s.data.dropWhile isJsSpace).reverse.dropWhile isJsSpace).reverse)

/-- Splitting a character list at every occurrence of `sep`; the accumulator
holds the current (reversed) token.  Mirrors `str.split(sep)` for a
one-character separator: `"".split(ε)` gives `[""]`, adjacent separators
give empty tokens. -/
def splitCharAux (sep : Char) : List Char → List Char → List (List Char)
  | [], acc => [acc.reverse]
  | c :: cs, acc =>
    if c == sep then acc.reverse :: splitCharAux sep cs []
    else splitCharAux sep cs (c :: acc)

/-- Model of `str.split(sep)` on character lists. -/
def splitCharList (sep : Char) (s : List Char) : List (List Char) :=
  splitCharAux sep s []

/-- Model of `str.split(sep)` for a one-character separator. -/
def jsSplitChar (sep : Char) (s : String) : List String :=
  (splitCharList sep s.data).map (fun l => String.mk l)

/-- Model of `str.replace(pat, '')` for a literal (non-regex) pattern:
remove the first occurrence of `pat`, if any. -/
def replaceFirstList (pat : List Char) : List Char → List Char
  | [] => []
  | c :: cs =>
    if (c :: cs).take pat.length == pat then (c :: cs).drop pat.length
    else c :: replaceFirstList pat cs

/-- Model of `s.replace(pat, '')` on strings. -/
def replaceFirst (s pat : String) : String :=
  String.mk (replaceFirstList pat.data s.data)

/-- Model of `host.endsWith(suffix)`. -/
def jsEndsWith (s suffix : String) : Bool :=
  s.data.reverse.take suffix.data.length == suffix.data.reverse

/-- Model of `originalPhone.replace(/\D/g, '')`: keep only decimal digits. -/
def stripNonDigits (s : String) : String :=
  String.mk (s.data.filter (fun c => c.isDigit))

/-- Source `stringToTrimmedArray`: split `str` on `sep`, trim every part and
drop the empty ones ("foo, bar" becomes ["foo", "bar"]).  All separators in
the source ('\n' and the default ',') are single characters. -/
def stringToTrimmedArray (str : String) (sep : Char) : List String :=
  ((jsSplitChar sep str).map jsTrim).filter (fun v => v ≠ "")

/-- Character class `[^<>()[\]\\.,;:\s@"]` of the local-part atoms of the
source's email regex. -/
def emailAtomChar (c : Char) : Bool :=
  !(c == '<' || c == '>' || c == '(' || c == ')' || c == '[' || c == ']' ||
    c == '\\' || c == '.' || c == ',' || c == ';' || c == ':' || c == '@' ||
    c == '"' || isJsSpace c)

/-- Local part alternative `[^...]+(\.[^...]+)*`: dot-separated nonempty
atoms of allowed characters. -/
def emailLocalAtoms (s : List Char) : Bool :=
  (splitCharList '.' s).all (fun p => !p.isEmpty && p.all emailAtomChar)

/-- Local part alternative `".+"`: a quoted string with at least one
character between the quotes, none of which is a line terminator (the
regex `.` does not match line terminators). -/
def emailQuotedLocal (s : List Char) : Bool :=
  decide (3 ≤ s.length) && s.head? == some '"' && s.getLast? == some '"' &&
  (s.drop 1).dropLast.all (fun c =>
    !(c == '\n' || c == '\r' || c == ' ' || c == ' '))

/-- Domain alternative `\[[0-9]{1,3}\.[0-9]{1,3}\.[0-9]{1,3}\.[0-9]{1,3}\]`:
a bracketed dotted quad of 1-3 digit groups. -/
def emailIpDomain (s : List Char) : Bool :=
  s.head? == some '[' && s.getLast? == some ']' &&
  (let parts := splitCharList '.' ((s.drop 1).dropLast)
   parts.length == 4 &&
     parts.all (fun p => !p.isEmpty && decide (p.length ≤ 3) &&
       p.all (fun c => c.isDigit)))

/-- Domain alternative `([a-zA-Z\-0-9]+\.)+[a-zA-Z]{2,}`: one or more
alphanumeric-or-hyphen labels followed by an alphabetic top label of length
at least two. -/
def emailHostDomain (s : List Char) : Bool :=
  let parts := splitCharList '.' s
  decide (2 ≤ parts.length) &&
  parts.dropLast.all (fun p =>
    !p.isEmpty && p.all (fun c => c.isAlpha || c.isDigit || c == '-')) &&
  (match parts.getLast? with
   | some lastPart => decide (2 ≤ lastPart.length) && lastPart.all (fun c => c.isAlpha)
   | none => false)

/-- Every way of cutting the list around one occurrence of '@'. -/
def atSplits : List Char → List (List Char × List Char)
  | [] => []
  | c :: cs =>
    (if c == '@' then [(([] : List Char), cs)] else []) ++
      (atSplits cs).map (fun p => (c :: p.1, p.2))

/-- Source `validateEmail`: the anchored regex
`^(atoms|quoted)@(ipquad|host)$` matches iff the string cuts at some '@'
into a valid local part and a valid domain. -/
def validateEmail (email : String) : Bool :=
  (atSplits email.data).any (fun p =>
    (emailLocalAtoms p.1 || emailQuotedLocal p.1) &&
    (emailIpDomain p.2 || emailHostDomain p.2))

/-- Source `warn`: the diagnostic line
`Row ${line + 2}: “${value}” is not a valid ${type}.`
(note the typographic quotes of the source). -/
def warn (value typ : String) (line : Nat) : String :=
  "Row " ++ toString (line + 2) ++ ": “" ++ value ++ "” is not a valid " ++ typ ++ "."

/-- Source `Tag` type. -/
structure Tag where
  tag : String
  checked : Bool
deriving DecidableEq

/-- An action button of a meeting.  Modelled from the spec: the
`ActionButton` type lives in `src/components/Meeting` which is outside the
given sources; its fields here are exactly those constructed by `load`
(`icon`, `text`, `title`), with the side-effecting `onClick` closure
replaced by the string it captures (`target`). -/
structure Button where
  icon : String
  target : String
  text : String
  title : String
deriving DecidableEq

/-- A meeting record.  Modelled from the spec: the `Meeting` type lives in
`src/components/Meeting` which is outside the given sources; its fields here
are exactly those assigned by `load`.  `time` is an abstract parsed moment
(`none` = "ongoing" meeting). -/
structure Meeting where
  name : String
  buttons : List Button
  notes : List String
  updated : String
  search : String
  tags : List String
  time : Option Nat
deriving DecidableEq

/-- Source `State` type (the `filters` map is an association list with the
keys "days", "formats", "types"). -/
structure State where
  filters : List (String × List Tag)
  limit : Nat
  loading : Bool
  meetings : List Meeting
  search : List String
  timezone : String
deriving DecidableEq

/-- One row of the raw feed (`data.feed.entry[i]`).  Each named field is
`some` text or `none` when the nested field is absent (in which case the
JS access `['gsx$...']['$t']` throws). -/
structure RawEntry where
  name : Option String
  notes : Option String
  url : Option String
  phone : Option String
  accesscode : Option String
  email : Option String
  formats : Option String
  types : Option String
  timezone : Option String
  times : Option String
  updated : Option String
deriving DecidableEq

/-- External capabilities and configuration of `load`.  Modelled from the
spec: `videoServices`, `days` and `meetingsPerPage` come from `./config`
(a table mapping service display-name to domain suffixes, a fixed day-name
list, and a default page size); `parseURL` abstracts `new URL(u).hostname`
(`none` = parse failure, i.e. the constructor throws); `parseTime`
abstracts `moment.tz(ts, 'dddd h:mm a', tz)` (`none` = invalid);
`dec` abstracts `decodeURIComponent` (`none` = it throws); `tzGuess`
abstracts `moment.tz.guess()`; `locationSearch` is
`window.location.search`. -/
structure Env where
  videoServices : List (String × List String)
  days : List String
  meetingsPerPage : Nat
  parseURL : String → Option String
  parseTime : String → String → Option Nat
  dec : String → Option String
  tzGuess : String
  locationSearch : String

/-- The url-handling block of `load`: an empty url adds nothing; a url the
URL constructor rejects warns and adds nothing; otherwise the first
configured video service one of whose domains is a suffix of the hostname
gives a `video` button labelled with the service name, and no match gives a
`link` button labelled with the hostname with its first occurrence of
"www." removed. -/
def urlPart (env : Env) (e : RawEntry) (i : Nat) :
    Option (List Button × List String) :=
  match e.url with
  | none => none
  | some urlRaw =>
    let originalUrl := jsTrim urlRaw
    if originalUrl = "" then some ([], [])
    else
      match env.parseURL originalUrl with
      | none => some ([], [warn originalUrl "URL" i])
      | some host =>
        let service := (env.videoServices.filter (fun sv =>
          (sv.2.filter (fun domain => jsEndsWith host domain)).length != 0)).map Prod.fst
        match service with
        | [] => some ([{ icon := "link", target := originalUrl,
                         text := replaceFirst host "www.",
                         title := "Visita " ++ originalUrl }], [])
        | s :: _ => some ([{ icon := "video", target := originalUrl, text := s,
                             title := "Visita " ++ originalUrl }], [])

/-- The phone-handling block of `load`: an empty phone adds nothing; a
digit-stripped phone of more than 8 digits gives a phone button whose dial
target is the digit string, extended by ",," and the access code when that
is nonempty (the access-code field is only read in this branch); otherwise
one warning and no button. -/
def phonePart (e : RawEntry) (i : Nat) : Option (List Button × List String) :=
  match e.phone with
  | none => none
  | some phoneRaw =>
    let originalPhone := jsTrim phoneRaw
    if originalPhone = "" then some ([], [])
    else
      let phone := stripNonDigits originalPhone
      if phone.length > 8 then
        match e.accesscode with
        | none => none
        | some acRaw =>
          let accessCode := jsTrim acRaw
          let phone2 := if accessCode.length != 0 then phone ++ ",," ++ accessCode else phone
          some ([{ icon := "phone", target := phone2, text := "Telefono",
                   title := "Chiama " ++ phone2 }], [])
      else some ([], [warn originalPhone "phone number" i])

/-- The email-handling block of `load`: an empty email adds nothing; a
valid one gives an email button; an invalid one warns. -/
def emailPart (e : RawEntry) (i : Nat) : Option (List Button × List String) :=
  match e.email with
  | none => none
  | some emailRaw =>
    let email := jsTrim emailRaw
    if email = "" then some ([], [])
    else if validateEmail email then
      some ([{ icon := "email", target := email, text := "Email",
               title := "Email " ++ email }], [])
    else some ([], [warn email "email address" i])

/-- The accumulation `xs.forEach(x => { if (!acc.includes(x)) acc.push(x) })`
used for the global `formats` and `types` vocabularies. -/
def addNew (acc : List String) (l : List String) : List String :=
  l.foldl (fun a f => if a.contains f then a else a ++ [f]) acc

/-- Source search-index derivation over characters:
`name.toLowerCase().split(' ').filter(e => e).join(' ')`. -/
def joinSpace : List (List Char) → List Char
  | [] => []
  | [t] => t
  | t :: ts => t ++ ' ' :: joinSpace ts

/-- Search-index characters of a name: lowercase, split on the space
character, drop empty tokens, rejoin with single spaces. -/
def searchChars (cs : List Char) : List Char :=
  joinSpace ((splitCharList ' ' (cs.map Char.toLower)).filter (fun t => !t.isEmpty))

/-- Source search-index derivation (lines 138-142 of `data.ts`). -/
def searchIndex (name : String) : String :=
  String.mk (searchChars name.data)

/-- Modelled from the spec: the Search Index Builder as the spec words it,
"lowercase, split on whitespace, drop empty tokens, rejoin with single
spaces" — splitting on every whitespace character, not only on ' '.
Stated only to compare with `searchIndex`, which embeds the source. -/
def splitPredAux (p : Char → Bool) : List Char → List Char → List (List Char)
  | [], acc => [acc.reverse]
  | c :: cs, acc =>
    if p c then acc.reverse :: splitPredAux p cs []
    else splitPredAux p cs (c :: acc)

/-- Modelled from the spec: search string per the spec's words (split on
whitespace rather than on the space character). -/
def searchSpec (name : String) : String :=
  String.mk (joinSpace ((splitPredAux isJsSpace (name.data.map Char.toLower) []).filter
    (fun t => !t.isEmpty)))

/-- Two adjacent characters are not both spaces ("no double spaces"). -/
def noDoubleSpace (a b : Char) : Prop := ¬(a = ' ' ∧ b = ' ')

/-- Result of processing rows: the meetings and warnings produced so far
and the global formats/types vocabularies. -/
structure RowOut where
  meetings : List Meeting
  formats : List String
  types : List String
  warnings : List String
deriving DecidableEq

/-- The base meeting record of one row, before time expansion: trimmed name,
the url/phone/email buttons in that order, notes split on newlines, the
pass-through updated stamp, the derived search index, and the concatenation
of this row's format and type tokens as tags. -/
def rowBase (nameRaw notesRaw updatedRaw formatsRaw typesRaw : String)
    (urlButtons phoneButtons emailButtons : List Button) : Meeting :=
  { name := jsTrim nameRaw,
    buttons := urlButtons ++ phoneButtons ++ emailButtons,
    notes := stringToTrimmedArray notesRaw '\n',
    updated := updatedRaw,
    search := searchIndex (jsTrim nameRaw),
    tags := stringToTrimmedArray formatsRaw ',' ++ stringToTrimmedArray typesRaw ',',
    time := none }

/-- The value a row contributes once every field access has succeeded: one
cloned meeting per valid time expression (an invalid expression warns and is
dropped), or the single "ongoing" base meeting when the times list is empty;
the global vocabularies are extended with this row's unseen tokens. -/
def rowValue (env : Env) (i : Nat)
    (nameRaw notesRaw updatedRaw formatsRaw typesRaw timezoneRaw timesRaw : String)
    (urlButtons phoneButtons emailButtons : List Button)
    (urlWarns phoneWarns emailWarns : List String)
    (formats types : List String) : RowOut :=
  let base := rowBase nameRaw notesRaw updatedRaw formatsRaw typesRaw
    urlButtons phoneButtons emailButtons
  let timezone := jsTrim timezoneRaw
  let times := stringToTrimmedArray timesRaw '\n'
  { meetings :=
      if times.isEmpty then [base]
      else times.filterMap (fun ts =>
        (env.parseTime ts timezone).map (fun t => { base with time := some t })),
    formats := addNew formats (stringToTrimmedArray formatsRaw ','),
    types := addNew types (stringToTrimmedArray typesRaw ','),
    warnings := urlWarns ++ phoneWarns ++ emailWarns ++
      times.filterMap (fun ts =>
        match env.parseTime ts timezone with
        | some _ => none
        | none => some (warn ts "time" i)) }

/-- Processing of one feed row (one iteration of the `for` loop of `load`):
extract the named fields (an absent field throws, i.e. `none`), build the
buttons, and produce the row's `rowValue`. -/
def processRow (env : Env) (i : Nat) (e : RawEntry) (formats types : List String) :
    Option RowOut :=
  match e.name, e.notes, e.updated with
  | some nameRaw, some notesRaw, some updatedRaw =>
    match urlPart env e i with
    | none => none
    | some (urlButtons, urlWarns) =>
      match phonePart e i with
      | none => none
      | some (phoneButtons, phoneWarns) =>
        match emailPart e i with
        | none => none
        | some (emailButtons, emailWarns) =>
          match e.formats, e.types, e.timezone, e.times with
          | some formatsRaw, some typesRaw, some timezoneRaw, some timesRaw =>
            some (rowValue env i nameRaw notesRaw updatedRaw formatsRaw typesRaw
              timezoneRaw timesRaw urlButtons phoneButtons emailButtons
              urlWarns phoneWarns emailWarns formats types)
          | _, _, _, _ => none
  | _, _, _ => none

/-- The row loop of `load`, threading the accumulated meetings, global
vocabularies and warnings; a row whose extraction throws aborts the whole
loop (there is no try/catch around it in the source). -/
def loadRows (env : Env) : Nat → List RawEntry → RowOut → Option RowOut
  | _, [], acc => some acc
  | i, e :: rest, acc =>
    match processRow env i e acc.formats acc.types with
    | none => none
    | some out =>
      loadRows env (i + 1) rest {
        meetings := acc.meetings ++ out.meetings,
        formats := out.formats,
        types := out.types,
        warnings := acc.warnings ++ out.warnings }

/-- Sorting of the vocabularies: `formats.sort()` with the JS default
comparator is an ordinal (code-unit) ascending string sort; on distinct
elements it is the unique sorted permutation, here realised by insertion
sort over the lexicographic order on `String.data`. -/
def ordinalLe (a b : String) : Prop := a.data ≤ b.data

instance : DecidableRel ordinalLe :=
  fun a b => inferInstanceAs (Decidable (a.data ≤ b.data))

instance : IsTotal String ordinalLe := ⟨fun a b => le_total a.data b.data⟩

instance : IsTrans String ordinalLe := ⟨fun _ _ _ hab hbc => le_trans hab hbc⟩

/-- Model of `array.sort()` on distinct strings. -/
def sortStrings (l : List String) : List String :=
  List.insertionSort ordinalLe l

/-- Mapping `decodeURIComponent` over the comma-separated values: the first
decode failure (a throw) aborts. -/
def decodeAll (dec : String → Option String) : List String → Option (List String)
  | [] => some []
  | x :: xs =>
    match dec x, decodeAll dec xs with
    | some y, some ys => some (y :: ys)
    | _, _ => none

/-- One `key=value1,value2,...` pair of the query string:
`pair.split('=')` destructured into the first two parts (a pair with no '='
leaves `value` undefined and the subsequent `value.split(',')` throws);
the comma-separated parts are passed through `decodeURIComponent`. -/
def parsePair (dec : String → Option String) (pair : String) :
    Option (String × List String) :=
  match jsSplitChar '=' pair with
  | [_] => none
  | key :: value :: _ =>
    (decodeAll dec (jsSplitChar ',' value)).map (fun vs => (key, vs))
  | [] => none

/-- Parsing of every '&'-separated pair in order; the first throwing pair
aborts. -/
def parsePairs (dec : String → Option String) : List String →
    Option (List (String × List String))
  | [] => some []
  | p :: ps =>
    match parsePair dec p, parsePairs dec ps with
    | some kv, some rest => some (kv :: rest)
    | _, _ => none

/-- The query-string read of `load`: skipped unless
`window.location.search.length > 1`, otherwise the string after the leading
'?' is split on '&' and every pair is parsed (a throwing pair aborts). -/
def parseQuery (dec : String → Option String) (locationSearch : String) :
    Option (List (String × List String)) :=
  if locationSearch.length > 1 then
    parsePairs dec (jsSplitChar '&' (String.mk (locationSearch.data.drop 1)))
  else some []

/-- Reading `query[key]`: the JS object assignment keeps the last write for
a key, and `query.k || []` defaults an absent key to the empty list. -/
def queryLookup (q : List (String × List String)) (k : String) : List String :=
  match q.reverse.find? (fun p => p.1 == k) with
  | some p => p.2
  | none => []

/-- Source `arrayToTagsArray`: tag each vocabulary entry with whether it
occurs in the preselected values. -/
def arrayToTagsArray (array : List String) (values : List String) : List Tag :=
  array.map (fun tag => { tag := tag, checked := values.contains tag })

/-- Result of `load`: the assembled state plus the diagnostic warnings the
run printed to the console. -/
structure LoadResult where
  state : State
  warnings : List String
deriving DecidableEq

/-- Assembly of the final state from the row-loop output and the parsed
query string: the three filter vocabularies (fixed days, sorted formats and
types) tagged with their preselection, the configured page size,
`loading = false`, the expanded meetings, an empty search, and the guessed
timezone. -/
def assembledState (env : Env) (out : RowOut)
    (query : List (String × List String)) : LoadResult where
  state := {
    filters := [
      ("days", arrayToTagsArray env.days (queryLookup query "days")),
      ("formats", arrayToTagsArray (sortStrings out.formats) (queryLookup query "formats")),
      ("types", arrayToTagsArray (sortStrings out.types) (queryLookup query "types"))],
    limit := env.meetingsPerPage,
    loading := false,
    meetings := out.meetings,
    search := [],
    timezone := env.tzGuess }
  warnings := out.warnings

/-- Source `load` (`data.ts` lines 20-200): run the row loop, sort the
vocabularies, parse the query string, and assemble the `State`.  `none`
models an uncaught exception (absent field or bad query pair), in which
case no state is produced. -/
def load (env : Env) (feed : List RawEntry) : Option LoadResult :=
  match loadRows env 0 feed { meetings := [], formats := [], types := [], warnings := [] } with
  | none => none
  | some out =>
    match parseQuery env.dec env.locationSearch with
    | none => none
    | some query => some (assembledState env out query)

/-- All named fields of a row are present, so that none of the row's field
accesses can throw. -/
def fieldsPresent (e : RawEntry) : Bool :=
  e.name.isSome && e.notes.isSome && e.url.isSome && e.phone.isSome &&
  e.accesscode.isSome && e.email.isSome && e.formats.isSome && e.types.isSome &&
  e.timezone.isSome && e.times.isSome && e.updated.isSome

/-- An environment with no configured services, trivial external parsers
(every URL invalid, every time expression invalid), identity percent
decoding, and an empty query string; concrete cases below override the
relevant pieces. -/
def baseEnv : Env := {
  videoServices := [],
  days := [],
  meetingsPerPage := 10,
  parseURL := fun _ => none,
  parseTime := fun _ _ => none,
  dec := fun s => some s,
  tzGuess := "Europe/Rome",
  locationSearch := "" }

/-- A fully populated feed row with innocuous values; concrete cases below
override the field under scrutiny. -/
def blankEntry : RawEntry := {
  name := some "Test Meeting",
  notes := some "",
  url := some "",
  phone := some "",
  accesscode := some "",
  email := some "",
  formats := some "",
  types := some "",
  timezone := some "Europe/Rome",
  times := some "",
  updated := some "2020-01-01" }

/-- A row whose times field holds one unparseable expression. -/
def badTimesEntry : RawEntry := { blankEntry with times := some "garbage" }

/-- A row whose times field holds two unparseable expressions. -/
def twoBadTimesEntry : RawEntry := { blankEntry with times := some "x\ny" }

/-- A row listing the same time expression twice. -/
def dupTimesEntry : RawEntry :=
  { blankEntry with times := some "Monday 7:00 pm\nMonday 7:00 pm" }

/-- An environment whose time parser accepts everything, always producing
the same instant. -/
def constTimeEnv : Env := { baseEnv with parseTime := fun _ _ => some 0 }

/-- A row with the name field absent. -/
def missingNameEntry : RawEntry := { blankEntry with name := none }

/-- A row with a 10-digit phone number and an access code. -/
def longPhoneEntry : RawEntry :=
  { blankEntry with phone := some "555-123-4567", accesscode := some "9876" }

/-- An environment whose URL parser reports a hostname with an interior
"www." and no configured video services. -/
def interiorWwwEnv : Env :=
  { baseEnv with parseURL := fun _ => some "xwww.example.com" }

/-- A row with a URL (the parsed hostname comes from the environment). -/
def interiorWwwEntry : RawEntry :=
  { blankEntry with url := some "http://xwww.example.com" }

/-- An environment with one configured video service matching the parsed
hostname by domain suffix. -/
def zoomEnv : Env :=
  { baseEnv with videoServices := [("Zoom", ["zoom.us"])],
                 parseURL := fun _ => some "us02web.zoom.us" }

/-- A row carrying a video-service URL. -/
def zoomEntry : RawEntry :=
  { blankEntry with url := some "https://us02web.zoom.us/j/123" }

/-- A row whose formats and types lists share the token "x". -/
def dupTagEntry : RawEntry := { blankEntry with formats := some "x", types := some "x" }

/-- An environment whose query string preselects two format tags and also
carries a pair with an unrecognized key. -/
def queryEnv : Env := { baseEnv with locationSearch := "?formats=a,c&x=y" }

/-- A row contributing the format tokens "b", "a", "c" (unsorted). -/
def vocabEntry : RawEntry := { blankEntry with formats := some "b, a, c" }

/-- The parsed query of `queryEnv`. -/
def c4Query : List (String × List String) := [("formats", ["a", "c"]), ("x", ["y"])]

/-- The formats vocabulary `queryEnv` and `vocabEntry` produce: sorted,
distinct, checked exactly on the preselected "a" and "c". -/
def c4FormatsTags : List Tag :=
  [{ tag := "a", checked := true }, { tag := "b", checked := false },
   { tag := "c", checked := true }]

/-- An environment whose query string holds a pair without an '='. -/
def badQueryEnv : Env := { baseEnv with locationSearch := "?foo" }

/-- An environment whose query string holds only a pair with an
unrecognized key. -/
def unrecognizedQueryEnv : Env := { baseEnv with locationSearch := "?x=y" }

/-- Lowercasing a basic-latin character twice is the same as doing it
once. -/
theorem char_toLower_idem (c : Char) : c.toLower.toLower = c.toLower := by
  by_cases h : 65 ≤ c.toNat ∧ c.toNat ≤ 90
  · have h1 : c.toLower = Char.ofNat (c.toNat + 32) := by
      simp [Char.toLower, h.1, h.2]
    rw [h1]
    obtain ⟨h2, h3⟩ := h
    generalize c.toNat = n at h2 h3
    interval_cases n <;> decide
  · have h1 : c.toLower = c := by
      simp only [Char.toLower]
      split
      · rename_i hc
        exact absurd ⟨hc.1, hc.2⟩ h
      · rfl
    rw [h1, h1]

/-- Successful row processing decomposes into present fields, successful
button blocks, and the `rowValue` they determine. -/
theorem processRow_shape (env : Env) (i : Nat) (e : RawEntry) (fs ts : List String)
    (out : RowOut) (hout : processRow env i e fs ts = some out) :
    ∃ nameRaw notesRaw updatedRaw formatsRaw typesRaw timezoneRaw timesRaw
      urlButtons phoneButtons emailButtons urlWarns phoneWarns emailWarns,
      e.name = some nameRaw ∧ e.notes = some notesRaw ∧ e.updated = some updatedRaw ∧
      e.formats = some formatsRaw ∧ e.types = some typesRaw ∧
      e.timezone = some timezoneRaw ∧ e.times = some timesRaw ∧
      urlPart env e i = some (urlButtons, urlWarns) ∧
      phonePart e i = some (phoneButtons, phoneWarns) ∧
      emailPart e i = some (emailButtons, emailWarns) ∧
      out = rowValue env i nameRaw notesRaw updatedRaw formatsRaw typesRaw
        timezoneRaw timesRaw urlButtons phoneButtons emailButtons
        urlWarns phoneWarns emailWarns fs ts := by
  rcases hn : e.name with _ | nameRaw
  · simp [processRow, hn] at hout
  rcases hno : e.notes with _ | notesRaw
  · simp [processRow, hn, hno] at hout
  rcases hup : e.updated with _ | updatedRaw
  · simp [processRow, hn, hno, hup] at hout
  rcases hu : urlPart env e i with _ | ⟨urlButtons, urlWarns⟩
  · simp [processRow, hn, hno, hup, hu] at hout
  rcases hp : phonePart e i with _ | ⟨phoneButtons, phoneWarns⟩
  · simp [processRow, hn, hno, hup, hu, hp] at hout
  rcases he : emailPart e i with _ | ⟨emailButtons, emailWarns⟩
  · simp [processRow, hn, hno, hup, hu, hp, he] at hout
  rcases hf : e.formats with _ | formatsRaw
  · simp [processRow, hn, hno, hup, hu, hp, he, hf] at hout
  rcases ht : e.types with _ | typesRaw
  · simp [processRow, hn, hno, hup, hu, hp, he, hf, ht] at hout
  rcases htz : e.timezone with _ | timezoneRaw
  · simp [processRow, hn, hno, hup, hu, hp, he, hf, ht, htz] at hout
  rcases hti : e.times with _ | timesRaw
  · simp [processRow, hn, hno, hup, hu, hp, he, hf, ht, htz, hti] at hout
  simp only [processRow, hn, hno, hup, hu, hp, he, hf, ht, htz, hti,
    Option.some.injEq] at hout
  exact ⟨nameRaw, notesRaw, updatedRaw, formatsRaw, typesRaw, timezoneRaw, timesRaw,
    urlButtons, phoneButtons, emailButtons, urlWarns, phoneWarns, emailWarns,
    rfl, rfl, rfl, rfl, rfl, rfl, rfl, rfl, rfl, rfl, hout.symm⟩

/-- Counting a filter-mapped list whose mapping is `Option.map g` of a
partial function: as many elements as successes of the partial function. -/
theorem length_filterMap_map (l : List String) (p : String → Option Nat)
    (g : Nat → Meeting) :
    (l.filterMap (fun s => (p s).map g)).length =
      (l.filter (fun s => (p s).isSome)).length := by
  induction l with
  | nil => rfl
  | cons a l ih =>
    cases h : p a with
    | none => simpa [List.filterMap_cons, h] using ih
    | some t => simpa [List.filterMap_cons, h] using ih

/-- Claim C1 fails on the code: a row whose times field holds one
expression that does not parse produces zero meetings (load drops the row),
not one "ongoing" meeting as the claim states. -/
theorem c1_counterexample :
    (load baseEnv [badTimesEntry]).map (fun r => r.state.meetings.length) = some 0 ∧
    stringToTrimmedArray "garbage" '\n' ≠ [] := by
  exact ⟨rfl, by decide⟩

/-- Claim C1 amended: a row whose times field yields an empty expression
list produces exactly one meeting with no time; a row with at least one
expression, all of which fail to parse, produces zero meetings. -/
theorem c1_amended (env : Env) (i : Nat) (e : RawEntry) (fs ts : List String)
    (out : RowOut) (tzRaw timesRaw : String)
    (hout : processRow env i e fs ts = some out)
    (htz : e.timezone = some tzRaw) (hti : e.times = some timesRaw) :
    (stringToTrimmedArray timesRaw '\n' = [] →
      out.meetings.length = 1 ∧ ∀ m ∈ out.meetings, m.time = none) ∧
    (stringToTrimmedArray timesRaw '\n' ≠ [] →
      (∀ s ∈ stringToTrimmedArray timesRaw '\n',
        env.parseTime s (jsTrim tzRaw) = none) →
      out.meetings = []) := by
  obtain ⟨n0, no0, u0, f0, t0, tz0, ti0, ub, pb, eb, uw, pw, ew,
    hn, hno, hup, hf, ht, htz2, hti2, hu, hp, he, hval⟩ :=
    processRow_shape env i e fs ts out hout
  rw [htz] at htz2
  obtain rfl := Option.some.inj htz2
  rw [hti] at hti2
  obtain rfl := Option.some.inj hti2
  subst hval
  constructor
  · intro hnil
    simp [rowValue, rowBase, hnil]
  · intro hne hall
    have hisEmpty : (stringToTrimmedArray timesRaw '\n').isEmpty = false := by
      cases hc : stringToTrimmedArray timesRaw '\n' with
      | nil => exact absurd hc hne
      | cons a l => rfl
    simp only [rowValue, hisEmpty, Bool.false_eq_true, if_false]
    exact List.filterMap_eq_nil_iff.mpr (fun s hs => by rw [hall s hs]; rfl)

/-- Witness for `c1_amended`: a concrete row with two unparseable time
expressions yields zero meetings. -/
theorem c1_amended_witness :
    (processRow baseEnv 0 twoBadTimesEntry [] []).map RowOut.meetings = some [] := by
  rcases h : processRow baseEnv 0 twoBadTimesEntry [] [] with _ | out
  · have hs : (processRow baseEnv 0 twoBadTimesEntry [] []).isSome = true := rfl
    rw [h] at hs
    simp at hs
  · have hm := (c1_amended baseEnv 0 twoBadTimesEntry [] [] out "Europe/Rome" "x\ny"
      h rfl rfl).2 (by decide) (fun s _ => rfl)
    simp [hm]

/-- Claim C2 fails on the code: a row listing the same valid time
expression twice produces two meetings with equal (not distinct) times. -/
theorem c2_counterexample :
    (load constTimeEnv [dupTimesEntry]).map
      (fun r => r.state.meetings.map Meeting.time) = some [some 0, some 0] ∧
    ¬ ([some 0, some 0] : List (Option Nat)).Nodup := by
  exact ⟨rfl, by decide⟩

/-- Claim C2 amended: a row with K valid time expressions (K at least 1)
produces exactly K meetings, each carrying the parse of one of the row's
expressions interpreted in the row's declared timezone, and any two of them
agree on every field other than time; the K time values need not be
distinct. -/
theorem c2_amended (env : Env) (i : Nat) (e : RawEntry) (fs ts : List String)
    (out : RowOut) (tzRaw timesRaw : String)
    (hout : processRow env i e fs ts = some out)
    (htz : e.timezone = some tzRaw) (hti : e.times = some timesRaw)
    (hK : 1 ≤ ((stringToTrimmedArray timesRaw '\n').filter
      (fun s => (env.parseTime s (jsTrim tzRaw)).isSome)).length) :
    out.meetings.length = ((stringToTrimmedArray timesRaw '\n').filter
      (fun s => (env.parseTime s (jsTrim tzRaw)).isSome)).length ∧
    (∀ m ∈ out.meetings, ∃ s ∈ stringToTrimmedArray timesRaw '\n',
      (env.parseTime s (jsTrim tzRaw)).isSome = true ∧
      m.time = env.parseTime s (jsTrim tzRaw)) ∧
    (∀ m1 ∈ out.meetings, ∀ m2 ∈ out.meetings,
      m1.name = m2.name ∧ m1.buttons = m2.buttons ∧ m1.notes = m2.notes ∧
      m1.updated = m2.updated ∧ m1.search = m2.search ∧ m1.tags = m2.tags) := by
  obtain ⟨n0, no0, u0, f0, t0, tz0, ti0, ub, pb, eb, uw, pw, ew,
    hn, hno, hup, hf, ht, htz2, hti2, hu, hp, he, hval⟩ :=
    processRow_shape env i e fs ts out hout
  rw [htz] at htz2
  obtain rfl := Option.some.inj htz2
  rw [hti] at hti2
  obtain rfl := Option.some.inj hti2
  subst hval
  have hne : stringToTrimmedArray timesRaw '\n' ≠ [] := by
    intro hc
    rw [hc] at hK
    simp at hK
  have hisEmpty : (stringToTrimmedArray timesRaw '\n').isEmpty = false := by
    cases hc : stringToTrimmedArray timesRaw '\n' with
    | nil => exact absurd hc hne
    | cons a l => rfl
  refine ⟨?_, ?_, ?_⟩
  · simp only [rowValue, hisEmpty, Bool.false_eq_true, if_false]
    exact length_filterMap_map _ _ _
  · intro m hm
    simp only [rowValue, hisEmpty, Bool.false_eq_true, if_false,
      List.mem_filterMap] at hm
    obtain ⟨s, hs, hmap⟩ := hm
    obtain ⟨t, hpt, hgt⟩ := Option.map_eq_some'.mp hmap
    refine ⟨s, hs, by rw [hpt]; rfl, ?_⟩
    rw [← hgt, hpt]
  · intro m1 hm1 m2 hm2
    simp only [rowValue, hisEmpty, Bool.false_eq_true, if_false,
      List.mem_filterMap] at hm1 hm2
    obtain ⟨s1, _, hmap1⟩ := hm1
    obtain ⟨t1, _, hgt1⟩ := Option.map_eq_some'.mp hmap1
    obtain ⟨s2, _, hmap2⟩ := hm2
    obtain ⟨t2, _, hgt2⟩ := Option.map_eq_some'.mp hmap2
    rw [← hgt1, ← hgt2]
    exact ⟨rfl, rfl, rfl, rfl, rfl, rfl⟩

/-- Witness for `c2_amended`: a concrete row with two (accepted) time
expressions yields exactly two meetings. -/
theorem c2_amended_witness :
    (processRow constTimeEnv 0 twoBadTimesEntry [] []).map
      (fun o => o.meetings.length) = some 2 := by
  rcases h : processRow constTimeEnv 0 twoBadTimesEntry [] [] with _ | out
  · have hs : (processRow constTimeEnv 0 twoBadTimesEntry [] []).isSome = true := rfl
    rw [h] at hs
    simp at hs
  · have hc := (c2_amended constTimeEnv 0 twoBadTimesEntry [] [] out
      "Europe/Rome" "x\ny" h rfl rfl (by decide)).1
    have h2 : ((stringToTrimmedArray "x\ny" '\n').filter
      (fun s => (constTimeEnv.parseTime s (jsTrim "Europe/Rome")).isSome)).length = 2 := by
      decide
    simp [hc, h2]

/-- Claim C7 fails on the code: a token occurring in both the formats and
the types list of a row appears twice in the meeting's tags. -/
theorem c7_counterexample :
    (load baseEnv [dupTagEntry]).map
      (fun r => r.state.meetings.map Meeting.tags) = some [["x", "x"]] ∧
    ¬ (["x", "x"] : List String).Nodup := by
  exact ⟨rfl, by decide⟩

/-- Claim C7 amended: a meeting's tags list is the concatenation of the
row's format tokens and type tokens, with duplicates kept (a token present
in both lists appears twice). -/
theorem c7_amended (env : Env) (i : Nat) (e : RawEntry) (fs ts : List String)
    (out : RowOut) (fRaw tRaw : String)
    (hout : processRow env i e fs ts = some out)
    (hf : e.formats = some fRaw) (ht : e.types = some tRaw) :
    ∀ m ∈ out.meetings,
      m.tags = stringToTrimmedArray fRaw ',' ++ stringToTrimmedArray tRaw ',' := by
  obtain ⟨n0, no0, u0, f0, t0, tz0, ti0, ub, pb, eb, uw, pw, ew,
    hn, hno, hup, hf2, ht2, htz2, hti2, hu, hp, he, hval⟩ :=
    processRow_shape env i e fs ts out hout
  rw [hf] at hf2
  obtain rfl := Option.some.inj hf2
  rw [ht] at ht2
  obtain rfl := Option.some.inj ht2
  subst hval
  intro m hm
  simp only [rowValue] at hm
  rcases hemp : (stringToTrimmedArray ti0 '\n').isEmpty with _ | _
  · rw [hemp] at hm
    simp only [Bool.false_eq_true, if_false, List.mem_filterMap] at hm
    obtain ⟨s, _, hmap⟩ := hm
    obtain ⟨t, _, hgt⟩ := Option.map_eq_some'.mp hmap
    rw [← hgt]
    rfl
  · rw [hemp] at hm
    simp only [if_true, List.mem_singleton] at hm
    subst hm
    rfl

/-- Witness for `c7_amended`: the row sharing the token "x" between formats
and types gives every produced meeting the tags list ["x", "x"]. -/
theorem c7_amended_witness :
    (processRow baseEnv 0 dupTagEntry [] []).map
      (fun o => o.meetings.all (fun m => m.tags == ["x", "x"])) = some true := by
  rcases h : processRow baseEnv 0 dupTagEntry [] [] with _ | out
  · have hs : (processRow baseEnv 0 dupTagEntry [] []).isSome = true := rfl
    rw [h] at hs
    simp at hs
  · have hc := c7_amended baseEnv 0 dupTagEntry [] [] out "x" "x" h rfl rfl
    have he : stringToTrimmedArray "x" ',' ++ stringToTrimmedArray "x" ',' = ["x", "x"] := by
      decide
    simp only [Option.map_some']
    congr 1
    rw [List.all_eq_true]
    intro m hm
    rw [hc m hm, he]
    rfl

/-- A string of length zero is the empty string. -/
theorem string_eq_empty_of_length (s : String) (h : s.length = 0) : s = "" := by
  cases s with
  | mk data =>
    cases data with
    | nil => rfl
    | cons c cs => simp [String.length] at h

/-- Claim C5: a non-empty phone field stripping to at most 8 digits yields
no button and exactly one warning; stripping to more than 8 digits yields
exactly one phone button whose dial target is the digit string with a
non-empty access code appended after ",," (e.g. "5551234567,,9876"). -/
theorem c5_phone (e : RawEntry) (i : Nat) (p : String)
    (hp : e.phone = some p) (hne : jsTrim p ≠ "") :
    ((stripNonDigits (jsTrim p)).length ≤ 8 →
      phonePart e i = some ([], [warn (jsTrim p) "phone number" i])) ∧
    (∀ a, e.accesscode = some a → jsTrim a ≠ "" →
      8 < (stripNonDigits (jsTrim p)).length →
      phonePart e i = some ([{
                               icon := "phone",
                               target := stripNonDigits (jsTrim p) ++ ",," ++ jsTrim a,
                               text := "Telefono",
                               title := "Chiama " ++ (stripNonDigits (jsTrim p) ++ ",," ++ jsTrim a) }],
        [])) := by
  constructor
  · intro hle
    simp only [phonePart, hp]
    rw [if_neg hne, if_neg (Nat.not_lt.mpr hle)]
  · intro a ha hnea hgt
    simp only [phonePart, hp]
    rw [if_neg hne, if_pos hgt, ha]
    have hlen : ((jsTrim a).length != 0) = true := by
      rw [bne_iff_ne]
      intro h0
      exact hnea (string_eq_empty_of_length _ h0)
    simp [hlen]

/-- Witness for `c5_phone`: phone "555-123-4567" with access code "9876"
gives one phone button with dial target "5551234567,,9876". -/
theorem c5_phone_witness :
    phonePart longPhoneEntry 0 = some ([{
                                           icon := "phone",
                                           target := "5551234567,,9876",
                                           text := "Telefono",
                                           title := "Chiama 5551234567,,9876" }], []) := by
  have h := (c5_phone longPhoneEntry 0 "555-123-4567" rfl (by decide)).2
    "9876" rfl (by decide) (by decide)
  exact h.trans (by decide)

/-- Claim C6 fails on the code: `hostname.replace('www.', '')` removes the
first occurrence of "www." anywhere in the hostname, so the non-matching
hostname "xwww.example.com" is labelled "xexample.com", not kept intact as
the claim (strip a leading "www." only) predicts. -/
theorem c6_counterexample :
    (load interiorWwwEnv [interiorWwwEntry]).map
      (fun r => r.state.meetings.map (fun m => m.buttons.map Button.text)) =
      some [["xexample.com"]] ∧
    ("xexample.com" : String) ≠ "xwww.example.com" := by
  exact ⟨rfl, by decide⟩

/-- Claim C6 amended: for a parseable non-empty URL, the first configured
service one of whose domains suffix-matches the hostname wins and gives a
video button labelled with the service name; with no match the button is a
link labelled with the hostname with its first occurrence of "www."
(leading or not) removed. -/
theorem c6_amended (env : Env) (e : RawEntry) (i : Nat) (u host : String)
    (hu : e.url = some u) (hne : jsTrim u ≠ "")
    (hhost : env.parseURL (jsTrim u) = some host) :
    (∀ s rest, (env.videoServices.filter (fun sv =>
        (sv.2.filter (fun domain => jsEndsWith host domain)).length != 0)).map Prod.fst
        = s :: rest →
      urlPart env e i = some ([{
                                 icon := "video", target := jsTrim u, text := s,
                                 title := "Visita " ++ jsTrim u }], [])) ∧
    ((env.videoServices.filter (fun sv =>
        (sv.2.filter (fun domain => jsEndsWith host domain)).length != 0)).map Prod.fst
        = [] →
      urlPart env e i = some ([{
                                 icon := "link", target := jsTrim u,
                                 text := replaceFirst host "www.",
                                 title := "Visita " ++ jsTrim u }], [])) := by
  constructor
  · intro s rest hsrv
    simp only [urlPart, hu]
    rw [if_neg hne, hhost]
    simp only [hsrv]
  · intro hsrv
    simp only [urlPart, hu]
    rw [if_neg hne, hhost]
    simp only [hsrv]

/-- Witness for `c6_amended`: a hostname ending in the configured "zoom.us"
domain gives a video button labelled "Zoom". -/
theorem c6_amended_witness :
    urlPart zoomEnv zoomEntry 0 = some ([{
                                            icon := "video",
                                            target := "https://us02web.zoom.us/j/123",
                                            text := "Zoom",
                                            title := "Visita https://us02web.zoom.us/j/123" }], []) := by
  have h := (c6_amended zoomEnv zoomEntry 0 "https://us02web.zoom.us/j/123"
    "us02web.zoom.us" rfl (by decide) rfl).1 "Zoom" [] (by decide)
  exact h.trans (by decide)

/-- Warnings of the url block: none, or a single URL warning for row `i`. -/
theorem urlPart_warn_shape (env : Env) (e : RawEntry) (i : Nat)
    (b : List Button) (w : List String) (h : urlPart env e i = some (b, w)) :
    w = [] ∨ ∃ v, w = [warn v "URL" i] := by
  rcases hu : e.url with _ | u
  · simp [urlPart, hu] at h
  simp only [urlPart, hu] at h
  split at h
  · simp only [Option.some.injEq, Prod.mk.injEq] at h
    exact Or.inl h.2.symm
  · split at h
    · simp only [Option.some.injEq, Prod.mk.injEq] at h
      exact Or.inr ⟨jsTrim u, h.2.symm⟩
    · split at h
      · simp only [Option.some.injEq, Prod.mk.injEq] at h
        exact Or.inl h.2.symm
      · simp only [Option.some.injEq, Prod.mk.injEq] at h
        exact Or.inl h.2.symm

/-- Warnings of the phone block: none, or a single phone-number warning for
row `i`. -/
theorem phonePart_warn_shape (e : RawEntry) (i : Nat)
    (b : List Button) (w : List String) (h : phonePart e i = some (b, w)) :
    w = [] ∨ ∃ v, w = [warn v "phone number" i] := by
  rcases hp : e.phone with _ | p
  · simp [phonePart, hp] at h
  simp only [phonePart, hp] at h
  split at h
  · simp only [Option.some.injEq, Prod.mk.injEq] at h
    exact Or.inl h.2.symm
  · split at h
    · rcases ha : e.accesscode with _ | a
      · rw [ha] at h
        simp at h
      · rw [ha] at h
        simp only [Option.some.injEq, Prod.mk.injEq] at h
        exact Or.inl h.2.symm
    · simp only [Option.some.injEq, Prod.mk.injEq] at h
      exact Or.inr ⟨jsTrim p, h.2.symm⟩

/-- Warnings of the email block: none, or a single email-address warning
for row `i`. -/
theorem emailPart_warn_shape (e : RawEntry) (i : Nat)
    (b : List Button) (w : List String) (h : emailPart e i = some (b, w)) :
    w = [] ∨ ∃ v, w = [warn v "email address" i] := by
  rcases he : e.email with _ | v
  · simp [emailPart, he] at h
  simp only [emailPart, he] at h
  split at h
  · simp only [Option.some.injEq, Prod.mk.injEq] at h
    exact Or.inl h.2.symm
  · split at h
    · simp only [Option.some.injEq, Prod.mk.injEq] at h
      exact Or.inl h.2.symm
    · simp only [Option.some.injEq, Prod.mk.injEq] at h
      exact Or.inr ⟨jsTrim v, h.2.symm⟩

/-- Every warning a row emits is a `warn` line carrying that row's index. -/
theorem processRow_warn_shape (env : Env) (i : Nat) (e : RawEntry)
    (fs ts : List String) (out : RowOut)
    (hout : processRow env i e fs ts = some out) :
    ∀ x ∈ out.warnings, ∃ v k, x = warn v k i := by
  obtain ⟨n0, no0, u0, f0, t0, tz0, ti0, ub, pb, eb, uw, pw, ew,
    hn, hno, hup, hf, ht, htz2, hti2, hu, hp, he, hval⟩ :=
    processRow_shape env i e fs ts out hout
  subst hval
  intro x hx
  simp only [rowValue, List.mem_append] at hx
  rcases hx with ((hx | hx) | hx) | hx
  · rcases urlPart_warn_shape env e i ub uw hu with hw | ⟨v, hw⟩
    · rw [hw] at hx
      simp at hx
    · rw [hw] at hx
      simp only [List.mem_singleton] at hx
      exact ⟨v, "URL", hx⟩
  · rcases phonePart_warn_shape e i pb pw hp with hw | ⟨v, hw⟩
    · rw [hw] at hx
      simp at hx
    · rw [hw] at hx
      simp only [List.mem_singleton] at hx
      exact ⟨v, "phone number", hx⟩
  · rcases emailPart_warn_shape e i eb ew he with hw | ⟨v, hw⟩
    · rw [hw] at hx
      simp at hx
    · rw [hw] at hx
      simp only [List.mem_singleton] at hx
      exact ⟨v, "email address", hx⟩
  · simp only [List.mem_filterMap] at hx
    obtain ⟨s, _, heq⟩ := hx
    rcases hpt : env.parseTime s (jsTrim tz0) with _ | t
    · rw [hpt] at heq
      simp only [Option.some.injEq] at heq
      exact ⟨s, "time", heq.symm⟩
    · rw [hpt] at heq
      simp at heq

/-- Every warning the row loop accumulates beyond its starting point is a
`warn` line for one of the processed row indices. -/
theorem loadRows_warn_shape (env : Env) :
    ∀ (rest : List RawEntry) (i : Nat) (acc out : RowOut),
      loadRows env i rest acc = some out →
      ∀ x ∈ out.warnings, x ∈ acc.warnings ∨
        ∃ v k j, i ≤ j ∧ j < i + rest.length ∧ x = warn v k j := by
  intro rest
  induction rest with
  | nil =>
    intro i acc out h x hx
    simp only [loadRows, Option.some.injEq] at h
    subst h
    exact Or.inl hx
  | cons e rest ih =>
    intro i acc out h x hx
    simp only [loadRows] at h
    rcases hpr : processRow env i e acc.formats acc.types with _ | rOut
    · rw [hpr] at h
      simp at h
    · rw [hpr] at h
      rcases ih (i + 1) _ out h x hx with hmem | ⟨v, k, j, hj1, hj2, hw⟩
      · simp only [List.mem_append] at hmem
        rcases hmem with hmem | hmem
        · exact Or.inl hmem
        · obtain ⟨v, k, hw⟩ := processRow_warn_shape env i e acc.formats acc.types rOut hpr x hmem
          exact Or.inr ⟨v, k, i, le_refl i, by simp, hw⟩
      · exact Or.inr ⟨v, k, j, by omega, by simp [List.length_cons]; omega, hw⟩

/-- Successful load decomposes into a successful row loop, a successful
query parse, and the state they determine. -/
theorem load_shape (env : Env) (feed : List RawEntry) (r : LoadResult)
    (h : load env feed = some r) :
    ∃ out query,
      loadRows env 0 feed { meetings := [], formats := [], types := [], warnings := [] }
        = some out ∧
      parseQuery env.dec env.locationSearch = some query ∧
      r = assembledState env out query := by
  rcases hl : loadRows env 0 feed
      { meetings := [], formats := [], types := [], warnings := [] } with _ | out
  · simp [load, hl] at h
  rcases hq : parseQuery env.dec env.locationSearch with _ | query
  · simp [load, hl, hq] at h
  refine ⟨out, query, rfl, rfl, ?_⟩
  simp only [load, hl, hq, Option.some.injEq] at h
  exact h.symm

/-- The url block never throws when the url field is present. -/
theorem urlPart_isSome (env : Env) (e : RawEntry) (i : Nat)
    (h : e.url.isSome = true) : (urlPart env e i).isSome = true := by
  obtain ⟨u, hu⟩ := Option.isSome_iff_exists.mp h
  simp only [urlPart, hu]
  split
  · rfl
  · split
    · rfl
    · split
      · rfl
      · rfl

/-- The phone block never throws when the phone and access-code fields are
present. -/
theorem phonePart_isSome (e : RawEntry) (i : Nat)
    (h : e.phone.isSome = true) (ha : e.accesscode.isSome = true) :
    (phonePart e i).isSome = true := by
  obtain ⟨p, hp⟩ := Option.isSome_iff_exists.mp h
  obtain ⟨a, hac⟩ := Option.isSome_iff_exists.mp ha
  simp only [phonePart, hp]
  by_cases hne : jsTrim p = ""
  · rw [if_pos hne]
    rfl
  · rw [if_neg hne]
    by_cases hgt : (stripNonDigits (jsTrim p)).length > 8
    · rw [if_pos hgt, hac]
      rcases hlen : ((jsTrim a).length != 0) with _ | _ <;> simp [hlen]
    · rw [if_neg hgt]
      rfl

/-- The email block never throws when the email field is present. -/
theorem emailPart_isSome (e : RawEntry) (i : Nat)
    (h : e.email.isSome = true) : (emailPart e i).isSome = true := by
  obtain ⟨v, hv⟩ := Option.isSome_iff_exists.mp h
  simp only [emailPart, hv]
  by_cases hne : jsTrim v = ""
  · rw [if_pos hne]
    rfl
  · rw [if_neg hne]
    by_cases hval : validateEmail (jsTrim v) = true
    · rw [if_pos hval]
      rfl
    · rw [if_neg hval]
      rfl

/-- A row with every named field present never aborts the loop. -/
theorem processRow_isSome (env : Env) (i : Nat) (e : RawEntry)
    (fs ts : List String) (hfp : fieldsPresent e = true) :
    (processRow env i e fs ts).isSome = true := by
  simp only [fieldsPresent, Bool.and_eq_true] at hfp
  obtain ⟨⟨⟨⟨⟨⟨⟨⟨⟨⟨h1, h2⟩, h3⟩, h4⟩, h5⟩, h6⟩, h7⟩, h8⟩, h9⟩, h10⟩, h11⟩ := hfp
  obtain ⟨nameRaw, hn⟩ := Option.isSome_iff_exists.mp h1
  obtain ⟨notesRaw, hno⟩ := Option.isSome_iff_exists.mp h2
  obtain ⟨updatedRaw, hup⟩ := Option.isSome_iff_exists.mp h11
  obtain ⟨formatsRaw, hf⟩ := Option.isSome_iff_exists.mp h7
  obtain ⟨typesRaw, ht⟩ := Option.isSome_iff_exists.mp h8
  obtain ⟨timezoneRaw, htz⟩ := Option.isSome_iff_exists.mp h9
  obtain ⟨timesRaw, hti⟩ := Option.isSome_iff_exists.mp h10
  have hus := urlPart_isSome env e i h3
  have hps := phonePart_isSome e i h4 h5
  have hes := emailPart_isSome e i h6
  rcases hu : urlPart env e i with _ | ⟨ub, uw⟩
  · rw [hu] at hus
    simp at hus
  rcases hph : phonePart e i with _ | ⟨pb, pw⟩
  · rw [hph] at hps
    simp at hps
  rcases he : emailPart e i with _ | ⟨eb, ew⟩
  · rw [he] at hes
    simp at hes
  simp [processRow, hn, hno, hup, hf, ht, htz, hti, hu, hph, he]

/-- A row loop over rows with all fields present never aborts. -/
theorem loadRows_isSome (env : Env) :
    ∀ (rest : List RawEntry) (i : Nat) (acc : RowOut),
      (∀ e ∈ rest, fieldsPresent e = true) →
      (loadRows env i rest acc).isSome = true := by
  intro rest
  induction rest with
  | nil => intro i acc _; rfl
  | cons e rest ih =>
    intro i acc hfp
    have hes := processRow_isSome env i e acc.formats acc.types
      (hfp e (List.mem_cons_self e rest))
    rcases hpr : processRow env i e acc.formats acc.types with _ | rOut
    · rw [hpr] at hes
      simp at hes
    · simp only [loadRows, hpr]
      exact ih (i + 1) _ (fun x hx => hfp x (List.mem_cons_of_mem e hx))

/-- A row with the name field absent aborts that row's processing. -/
theorem processRow_none_of_name_none (env : Env) (i : Nat) (e : RawEntry)
    (fs ts : List String) (h : e.name = none) :
    processRow env i e fs ts = none := by
  simp [processRow, h]

/-- A row with the name field absent anywhere in the remaining rows aborts
the whole loop. -/
theorem loadRows_none_of_missing (env : Env) :
    ∀ (rest : List RawEntry) (i : Nat) (acc : RowOut) (e : RawEntry),
      e ∈ rest → e.name = none → loadRows env i rest acc = none := by
  intro rest
  induction rest with
  | nil => intro i acc e he _; exact absurd he (List.not_mem_nil e)
  | cons f rest ih =>
    intro i acc e he hname
    rcases List.mem_cons.mp he with rfl | hmem
    · simp only [loadRows, processRow_none_of_name_none env i e acc.formats acc.types hname]
    · rcases hpr : processRow env i f acc.formats acc.types with _ | rOut
      · simp only [loadRows, hpr]
      · simp only [loadRows, hpr]
        exact ih (i + 1) _ e hmem hname

/-- Claim C3 fails on the code: a feed containing a row with the name field
absent makes the whole load throw (no state at all), rather than skipping
that row and returning a best-effort state. -/
theorem c3_counterexample :
    load baseEnv [missingNameEntry, blankEntry] = none := by
  rfl

/-- Claim C3 amended: classification and parse failures are never fatal —
a feed whose rows all have their named fields present always yields a state
(provided the query string parses) — but an absent named field is fatal for
the entire run, not only for its row: load yields no state at all. -/
theorem c3_amended (env : Env) (feed : List RawEntry) :
    ((∀ e ∈ feed, fieldsPresent e = true) →
      (parseQuery env.dec env.locationSearch).isSome = true →
      (load env feed).isSome = true) ∧
    (∀ e ∈ feed, e.name = none → load env feed = none) := by
  constructor
  · intro hfp hq
    have hls := loadRows_isSome env feed 0
      { meetings := [], formats := [], types := [], warnings := [] } hfp
    rcases hl : loadRows env 0 feed
        { meetings := [], formats := [], types := [], warnings := [] } with _ | out
    · rw [hl] at hls
      simp at hls
    · rcases hqq : parseQuery env.dec env.locationSearch with _ | query
      · rw [hqq] at hq
        simp at hq
      · simp [load, hl, hqq]
  · intro e he hname
    have hl := loadRows_none_of_missing env feed 0
      { meetings := [], formats := [], types := [], warnings := [] } e he hname
    simp [load, hl]

/-- Witness for `c3_amended`: a well-formed one-row feed loads, and the
same feed with the name field removed makes the whole load fail. -/
theorem c3_amended_witness :
    (load baseEnv [blankEntry]).isSome = true ∧
    load baseEnv [missingNameEntry] = none := by
  constructor
  · exact (c3_amended baseEnv [blankEntry]).1
      (fun e he => by rw [List.mem_singleton.mp he]; rfl) rfl
  · exact (c3_amended baseEnv [missingNameEntry]).2 missingNameEntry
      (List.mem_singleton.mpr rfl) rfl

/-- Reading a key none of the query pairs carries gives the empty
preselection. -/
theorem queryLookup_eq_nil (q : List (String × List String)) (k : String)
    (h : ∀ p ∈ q, ¬ p.1 = k) : queryLookup q k = [] := by
  have hf : q.reverse.find? (fun p => p.1 == k) = none :=
    List.find?_eq_none.mpr (fun x hx => by
      simp only [beq_iff_eq]
      exact h x (List.mem_reverse.mp hx))
  simp [queryLookup, hf]

/-- A tag produced by `arrayToTagsArray` is checked exactly when the
preselection contains it, and its tag value comes from the vocabulary. -/
theorem arrayToTagsArray_mem (a v : List String) (t : Tag)
    (h : t ∈ arrayToTagsArray a v) :
    t.checked = v.contains t.tag ∧ t.tag ∈ a := by
  simp only [arrayToTagsArray, List.mem_map] at h
  obtain ⟨x, hx, rfl⟩ := h
  exact ⟨rfl, hx⟩

/-- Percent decoding of a value list succeeds when every part decodes. -/
theorem decodeAll_isSome (dec : String → Option String) :
    ∀ l : List String, (∀ x ∈ l, (dec x).isSome = true) →
      (decodeAll dec l).isSome = true := by
  intro l
  induction l with
  | nil => intro _; rfl
  | cons x xs ih =>
    intro h
    have hx := h x (List.mem_cons_self x xs)
    rcases hdx : dec x with _ | y
    · rw [hdx] at hx
      simp at hx
    · have hxs := ih (fun z hz => h z (List.mem_cons_of_mem x hz))
      rcases hds : decodeAll dec xs with _ | ys
      · rw [hds] at hxs
        simp at hxs
      · simp [decodeAll, hdx, hds]

/-- Claim C10 fails on the code: a query-string pair with no '=' separator
(here "?foo") makes the whole load throw, even on a well-formed feed. -/
theorem c10_counterexample :
    load badQueryEnv [blankEntry] = none ∧ jsSplitChar '=' "foo" = ["foo"] := by
  exact ⟨rfl, rfl⟩

/-- Claim C10 amended: load returns a state for every well-formed feed and
every query string that parses — every '&'-pair containing an '=' and
decodable values suffices for a pair to parse, but a pair with no '='
separator makes the whole load fail — and pairs whose key is no filter
category leave every checked flag false (unchanged). -/
theorem c10_amended (env : Env) (feed : List RawEntry)
    (q : List (String × List String))
    (hfp : ∀ e ∈ feed, fieldsPresent e = true)
    (hq : parseQuery env.dec env.locationSearch = some q) :
    (load env feed).isSome = true ∧
    (∀ pair key value rest, jsSplitChar '=' pair = key :: value :: rest →
      (∀ x ∈ jsSplitChar ',' value, (env.dec x).isSome = true) →
      (parsePair env.dec pair).isSome = true) ∧
    ((∀ p ∈ q, p.1 ≠ "days" ∧ p.1 ≠ "formats" ∧ p.1 ≠ "types") →
      ∀ r, load env feed = some r →
        ∀ cat tl, (cat, tl) ∈ r.state.filters → ∀ t ∈ tl, t.checked = false) := by
  refine ⟨?_, ?_, ?_⟩
  · have hls := loadRows_isSome env feed 0
      { meetings := [], formats := [], types := [], warnings := [] } hfp
    rcases hl : loadRows env 0 feed
        { meetings := [], formats := [], types := [], warnings := [] } with _ | out
    · rw [hl] at hls
      simp at hls
    · simp [load, hl, hq]
  · intro pair key value rest hsplit hdec
    have hd := decodeAll_isSome env.dec (jsSplitChar ',' value) hdec
    rcases hds : decodeAll env.dec (jsSplitChar ',' value) with _ | vs
    · rw [hds] at hd
      simp at hd
    · simp [parsePair, hsplit, hds]
  · intro hkeys r hr cat tl hmem t ht
    obtain ⟨out, query, hl, hq2, hrr⟩ := load_shape env feed r hr
    rw [hq] at hq2
    obtain rfl := Option.some.inj hq2
    subst hrr
    have hdays : queryLookup q "days" = [] :=
      queryLookup_eq_nil q "days" (fun p hp => (hkeys p hp).1)
    have hformats : queryLookup q "formats" = [] :=
      queryLookup_eq_nil q "formats" (fun p hp => (hkeys p hp).2.1)
    have htypes : queryLookup q "types" = [] :=
      queryLookup_eq_nil q "types" (fun p hp => (hkeys p hp).2.2)
    simp only [assembledState, List.mem_cons, List.mem_singleton,
      List.not_mem_nil, or_false, Prod.mk.injEq] at hmem
    rcases hmem with ⟨-, htl⟩ | ⟨-, htl⟩ | ⟨-, htl⟩ <;> subst htl
    · rw [hdays] at ht
      exact (arrayToTagsArray_mem _ _ t ht).1
    · rw [hformats] at ht
      exact (arrayToTagsArray_mem _ _ t ht).1
    · rw [htypes] at ht
      exact (arrayToTagsArray_mem _ _ t ht).1

/-- Witness for `c10_amended`: the query "?x=y" (unrecognized key) loads a
well-formed one-row feed, the pair "x=y" parses, and the format tags all
stay unchecked. -/
theorem c10_amended_witness :
    (load unrecognizedQueryEnv [vocabEntry]).isSome = true ∧
    (parsePair unrecognizedQueryEnv.dec "x=y").isSome = true ∧
    (∀ t ∈ ([{ tag := "a", checked := false }, { tag := "b", checked := false },
      { tag := "c", checked := false }] : List Tag), t.checked = false) := by
  have hfp : ∀ e ∈ [vocabEntry], fieldsPresent e = true := by
    intro e he
    rw [List.mem_singleton.mp he]
    rfl
  have hthm := c10_amended unrecognizedQueryEnv [vocabEntry] [("x", ["y"])] hfp rfl
  refine ⟨hthm.1, hthm.2.1 "x=y" "x" "y" [] rfl (fun x _ => rfl), ?_⟩
  rcases h : load unrecognizedQueryEnv [vocabEntry] with _ | r
  · have hs := hthm.1
    rw [h] at hs
    simp at hs
  · have hfilters : r.state.filters = [("days", []),
        ("formats", [{ tag := "a", checked := false }, { tag := "b", checked := false },
          { tag := "c", checked := false }]), ("types", [])] := by
      have h2 : (load unrecognizedQueryEnv [vocabEntry]).map (fun r => r.state.filters) =
          some [("days", []),
            ("formats", [{ tag := "a", checked := false }, { tag := "b", checked := false },
              { tag := "c", checked := false }]), ("types", [])] := rfl
      rw [h] at h2
      simpa using h2
    exact hthm.2.2 (by decide) r h "formats" _ (by rw [hfilters]; simp)

/-- The JS `includes` check is list membership. -/
theorem contains_iff_mem (v : List String) (x : String) :
    v.contains x = true ↔ x ∈ v :=
  List.elem_iff

/-- The accumulation step of the vocabularies preserves distinctness. -/
theorem addNew_nodup (l : List String) :
    ∀ acc : List String, acc.Nodup → (addNew acc l).Nodup := by
  induction l with
  | nil => intro acc h; exact h
  | cons f l ih =>
    intro acc h
    show (List.foldl _ (if acc.contains f then acc else acc ++ [f]) l).Nodup
    by_cases hc : acc.contains f = true
    · rw [if_pos hc]
      exact ih acc h
    · rw [if_neg hc]
      refine ih (acc ++ [f]) ?_
      rw [List.nodup_append]
      refine ⟨h, List.nodup_singleton f, ?_⟩
      intro x hx hxf
      rw [List.mem_singleton] at hxf
      subst hxf
      exact hc ((contains_iff_mem acc x).mpr hx)

/-- The vocabularies accumulated by the row loop stay distinct. -/
theorem loadRows_nodup (env : Env) :
    ∀ (rest : List RawEntry) (i : Nat) (acc out : RowOut),
      loadRows env i rest acc = some out →
      acc.formats.Nodup → acc.types.Nodup →
      out.formats.Nodup ∧ out.types.Nodup := by
  intro rest
  induction rest with
  | nil =>
    intro i acc out h hf ht
    simp only [loadRows, Option.some.injEq] at h
    subst h
    exact ⟨hf, ht⟩
  | cons e rest ih =>
    intro i acc out h hf ht
    simp only [loadRows] at h
    rcases hpr : processRow env i e acc.formats acc.types with _ | rOut
    · rw [hpr] at h
      simp at h
    · rw [hpr] at h
      obtain ⟨n0, no0, u0, f0, t0, tz0, ti0, ub, pb, eb, uw, pw, ew,
        _, _, _, _, _, _, _, _, _, _, hval⟩ :=
        processRow_shape env i e acc.formats acc.types rOut hpr
      subst hval
      refine ih (i + 1) _ out h ?_ ?_
      · exact addNew_nodup _ acc.formats hf
      · exact addNew_nodup _ acc.types ht

/-- Insertion sort returns an `ordinalLe`-sorted list. -/
theorem sortStrings_sorted (l : List String) :
    List.Sorted ordinalLe (sortStrings l) :=
  List.sorted_insertionSort ordinalLe l

/-- Insertion sort permutes its input. -/
theorem sortStrings_perm (l : List String) : (sortStrings l).Perm l :=
  List.perm_insertionSort ordinalLe l

/-- Tagging a vocabulary does not change the tag values. -/
theorem arrayToTagsArray_map_tag (a v : List String) :
    (arrayToTagsArray a v).map Tag.tag = a := by
  induction a with
  | nil => rfl
  | cons x l ih => simp [arrayToTagsArray] at ih ⊢; exact ih

/-- Claim C4: in every loaded state the formats and types vocabularies are
duplicate-free, sorted ascending by ordinal string comparison, and a tag is
checked exactly when the parsed query preselects it for that category. -/
theorem c4_vocabularies (env : Env) (feed : List RawEntry) (r : LoadResult)
    (q : List (String × List String))
    (h : load env feed = some r)
    (hq : parseQuery env.dec env.locationSearch = some q) :
    ∀ tl : List Tag,
      (("formats", tl) ∈ r.state.filters →
        (tl.map Tag.tag).Nodup ∧ List.Sorted ordinalLe (tl.map Tag.tag) ∧
        ∀ t ∈ tl, (t.checked = true ↔ t.tag ∈ queryLookup q "formats")) ∧
      (("types", tl) ∈ r.state.filters →
        (tl.map Tag.tag).Nodup ∧ List.Sorted ordinalLe (tl.map Tag.tag) ∧
        ∀ t ∈ tl, (t.checked = true ↔ t.tag ∈ queryLookup q "types")) := by
  obtain ⟨out, query, hl, hq2, hrr⟩ := load_shape env feed r h
  rw [hq] at hq2
  obtain rfl := Option.some.inj hq2
  subst hrr
  have hnodup := loadRows_nodup env feed 0
    { meetings := [], formats := [], types := [], warnings := [] } out hl
    List.nodup_nil List.nodup_nil
  intro tl
  constructor
  · intro hmem
    simp only [assembledState, List.mem_cons, List.not_mem_nil, or_false,
      Prod.mk.injEq] at hmem
    rcases hmem with ⟨hk, -⟩ | ⟨-, htl⟩ | ⟨hk, -⟩
    · exact absurd hk (by decide)
    · subst htl
      rw [arrayToTagsArray_map_tag]
      refine ⟨((sortStrings_perm out.formats).nodup_iff).mpr hnodup.1,
        sortStrings_sorted _, ?_⟩
      intro t ht
      rw [(arrayToTagsArray_mem _ _ t ht).1]
      exact contains_iff_mem _ _
    · exact absurd hk (by decide)
  · intro hmem
    simp only [assembledState, List.mem_cons, List.not_mem_nil, or_false,
      Prod.mk.injEq] at hmem
    rcases hmem with ⟨hk, -⟩ | ⟨hk, -⟩ | ⟨-, htl⟩
    · exact absurd hk (by decide)
    · exact absurd hk (by decide)
    · subst htl
      rw [arrayToTagsArray_map_tag]
      refine ⟨((sortStrings_perm out.types).nodup_iff).mpr hnodup.2,
        sortStrings_sorted _, ?_⟩
      intro t ht
      rw [(arrayToTagsArray_mem _ _ t ht).1]
      exact contains_iff_mem _ _

/-- Witness for `c4_vocabularies`: the formats "b, a, c" with preselection
"?formats=a,c&x=y" give the sorted, distinct vocabulary a, b, c with
exactly a and c checked. -/
theorem c4_vocabularies_witness :
    (load queryEnv [vocabEntry]).map (fun r => r.state.filters) =
      some [("days", []), ("formats", c4FormatsTags), ("types", [])] ∧
    ((c4FormatsTags.map Tag.tag).Nodup ∧
      List.Sorted ordinalLe (c4FormatsTags.map Tag.tag) ∧
      ∀ t ∈ c4FormatsTags, (t.checked = true ↔ t.tag ∈ queryLookup c4Query "formats")) := by
  refine ⟨rfl, ?_⟩
  rcases h : load queryEnv [vocabEntry] with _ | r
  · have hs : (load queryEnv [vocabEntry]).isSome = true := rfl
    rw [h] at hs
    simp at hs
  · have hfilters : r.state.filters =
        [("days", []), ("formats", c4FormatsTags), ("types", [])] := by
      have h2 : (load queryEnv [vocabEntry]).map (fun r => r.state.filters) =
          some [("days", []), ("formats", c4FormatsTags), ("types", [])] := rfl
      rw [h] at h2
      simpa using h2
    exact (c4_vocabularies queryEnv [vocabEntry] r c4Query h rfl c4FormatsTags).1
      (by rw [hfilters]; simp)

/-- Tokens of a character split never contain the separator. -/
theorem splitCharAux_no_sep (sep : Char) :
    ∀ (cs acc : List Char), (∀ c ∈ acc, c ≠ sep) →
      ∀ t ∈ splitCharAux sep cs acc, ∀ c ∈ t, c ≠ sep := by
  intro cs
  induction cs with
  | nil =>
    intro acc hacc t ht c hc
    simp only [splitCharAux, List.mem_singleton] at ht
    subst ht
    exact hacc c (List.mem_reverse.mp hc)
  | cons b cs ih =>
    intro acc hacc t ht c hc
    simp only [splitCharAux] at ht
    by_cases hb : (b == sep) = true
    · rw [if_pos hb] at ht
      rcases List.mem_cons.mp ht with rfl | ht2
      · exact hacc c (List.mem_reverse.mp hc)
      · exact ih [] (by simp) t ht2 c hc
    · rw [if_neg hb] at ht
      have hbne : b ≠ sep := by simpa using hb
      refine ih (b :: acc) ?_ t ht c hc
      intro x hx
      rcases List.mem_cons.mp hx with rfl | hx2
      · exact hbne
      · exact hacc x hx2

/-- Characters of a split token come from the split input (or the starting
accumulator). -/
theorem splitCharAux_subset (sep : Char) :
    ∀ (cs acc : List Char), ∀ t ∈ splitCharAux sep cs acc, ∀ c ∈ t,
      c ∈ cs ∨ c ∈ acc := by
  intro cs
  induction cs with
  | nil =>
    intro acc t ht c hc
    simp only [splitCharAux, List.mem_singleton] at ht
    subst ht
    exact Or.inr (List.mem_reverse.mp hc)
  | cons b cs ih =>
    intro acc t ht c hc
    simp only [splitCharAux] at ht
    by_cases hb : (b == sep) = true
    · rw [if_pos hb] at ht
      rcases List.mem_cons.mp ht with rfl | ht2
      · exact Or.inr (List.mem_reverse.mp hc)
      · rcases ih [] t ht2 c hc with hcs | hnil
        · exact Or.inl (List.mem_cons_of_mem b hcs)
        · exact absurd hnil (List.not_mem_nil c)
    · rw [if_neg hb] at ht
      rcases ih (b :: acc) t ht c hc with hcs | hacc
      · exact Or.inl (List.mem_cons_of_mem b hcs)
      · rcases List.mem_cons.mp hacc with rfl | hacc2
        · exact Or.inl (List.mem_cons_self c cs)
        · exact Or.inr hacc2

/-- A list without spaces trivially has no double spaces. -/
theorem chain'_of_no_space :
    ∀ t : List Char, (∀ c ∈ t, c ≠ ' ') → List.Chain' noDoubleSpace t := by
  intro t
  induction t with
  | nil => intro _; exact List.chain'_nil
  | cons a t ih =>
    intro h
    cases t with
    | nil => simp
    | cons b t2 =>
      rw [List.chain'_cons]
      exact ⟨fun hab => (h a (List.mem_cons_self a _)) hab.1,
        ih (fun c hc => h c (List.mem_cons_of_mem a hc))⟩

/-- Joining nonempty space-free tokens with single spaces yields no double
spaces and neither a leading nor a trailing space. -/
theorem joinSpace_props :
    ∀ ts : List (List Char),
      (∀ t ∈ ts, t ≠ [] ∧ ∀ c ∈ t, c ≠ ' ') →
      List.Chain' noDoubleSpace (joinSpace ts) ∧
      (∀ c, (joinSpace ts).head? = some c → c ≠ ' ') ∧
      (∀ c, (joinSpace ts).getLast? = some c → c ≠ ' ') := by
  intro ts
  induction ts with
  | nil =>
    intro _
    refine ⟨List.chain'_nil, ?_, ?_⟩ <;> intro c hc <;> simp [joinSpace] at hc
  | cons t ts ih =>
    intro h
    obtain ⟨hne, hns⟩ := h t (List.mem_cons_self t ts)
    cases ts with
    | nil =>
      refine ⟨chain'_of_no_space t hns, ?_, ?_⟩
      · intro c hc
        exact hns c (List.mem_of_mem_head? (Option.mem_def.mpr hc))
      · intro c hc
        exact hns c (List.mem_of_getLast?_eq_some hc)
    | cons t2 ts2 =>
      have ih2 := ih (fun x hx => h x (List.mem_cons_of_mem t hx))
      have hJne : joinSpace (t2 :: ts2) ≠ [] := by
        obtain ⟨hne2, -⟩ := h t2 (List.mem_cons_of_mem t (List.mem_cons_self t2 ts2))
        cases ts2 with
        | nil => exact hne2
        | cons t3 ts3 => simp [joinSpace]
      have hjeq : joinSpace (t :: t2 :: ts2) = t ++ ' ' :: joinSpace (t2 :: ts2) := rfl
      refine ⟨?_, ?_, ?_⟩
      · rw [hjeq, List.chain'_append]
        refine ⟨chain'_of_no_space t hns, ?_, ?_⟩
        · rw [List.chain'_cons']
          refine ⟨?_, ih2.1⟩
          intro y hy
          have hyne := ih2.2.1 y hy
          exact fun hc => hyne hc.2
        · intro x hx y hy
          have hxt : x ∈ t := List.mem_of_getLast?_eq_some hx
          exact fun hc => (hns x hxt) hc.1
      · intro c hc
        rw [hjeq] at hc
        cases t with
        | nil => exact absurd rfl hne
        | cons a t' =>
          simp only [List.cons_append, List.head?_cons, Option.some.injEq] at hc
          subst hc
          exact hns _ (List.mem_cons_self _ _)
      · intro c hc
        rw [hjeq, List.getLast?_append_of_ne_nil t (by simp)] at hc
        have : (' ' :: joinSpace (t2 :: ts2)).getLast? = (joinSpace (t2 :: ts2)).getLast? := by
          have h2 : ' ' :: joinSpace (t2 :: ts2) = [' '] ++ joinSpace (t2 :: ts2) := rfl
          rw [h2, List.getLast?_append_of_ne_nil [' '] hJne]
        rw [this] at hc
        exact ih2.2.2 c hc

/-- Every character of a join is a space or comes from a token. -/
theorem joinSpace_mem :
    ∀ (ts : List (List Char)) (c : Char), c ∈ joinSpace ts →
      c = ' ' ∨ ∃ t ∈ ts, c ∈ t := by
  intro ts
  induction ts with
  | nil =>
    intro c hc
    simp [joinSpace] at hc
  | cons t ts ih =>
    intro c hc
    cases ts with
    | nil => exact Or.inr ⟨t, List.mem_cons_self t [], hc⟩
    | cons t2 ts2 =>
      have hjeq : joinSpace (t :: t2 :: ts2) = t ++ ' ' :: joinSpace (t2 :: ts2) := rfl
      rw [hjeq] at hc
      rcases List.mem_append.mp hc with hc | hc
      · exact Or.inr ⟨t, List.mem_cons_self t _, hc⟩
      · rcases List.mem_cons.mp hc with rfl | hc2
        · exact Or.inl rfl
        · rcases ih c hc2 with hsp | ⟨t', ht', hct⟩
          · exact Or.inl hsp
          · exact Or.inr ⟨t', List.mem_cons_of_mem t ht', hct⟩

/-- Mapping a function that fixes every element of a list is the
identity. -/
theorem map_eq_self_of_fixed (f : Char → Char) :
    ∀ l : List Char, (∀ c ∈ l, f c = c) → l.map f = l := by
  intro l
  induction l with
  | nil => intro _; rfl
  | cons a l ih =>
    intro h
    rw [List.map_cons, h a (List.mem_cons_self a l),
      ih (fun c hc => h c (List.mem_cons_of_mem a hc))]

/-- Claim C8 fails on the code: the search index splits on the space
character only, not on all whitespace as the claim states: a name with an
interior tab keeps the tab, while the spec-worded derivation replaces it
with a space. -/
theorem c8_counterexample :
    searchIndex "A\tB" = "a\tb" ∧ searchSpec "A\tB" = "a b" ∧
    searchIndex "A\tB" ≠ searchSpec "A\tB" := by
  exact ⟨rfl, rfl, by decide⟩

/-- Claim C8 amended: the search string is the name lowercased, split on
the space character (not on all whitespace), with empty tokens dropped and
the rest rejoined by single spaces; consequently it is fixed under
re-lowercasing and has no double spaces and no leading or trailing
space. -/
theorem c8_amended (name : String) :
    (searchIndex name).data.map Char.toLower = (searchIndex name).data ∧
    List.Chain' noDoubleSpace (searchIndex name).data ∧
    (searchIndex name).data.head? ≠ some ' ' ∧
    (searchIndex name).data.getLast? ≠ some ' ' := by
  have hdata : (searchIndex name).data =
      joinSpace ((splitCharList ' ' (name.data.map Char.toLower)).filter
        (fun t => !t.isEmpty)) := rfl
  have hgood : ∀ t ∈ (splitCharList ' ' (name.data.map Char.toLower)).filter
      (fun t => !t.isEmpty), t ≠ [] ∧ ∀ c ∈ t, c ≠ ' ' := by
    intro t ht
    have ht2 := List.mem_filter.mp ht
    constructor
    · intro h0
      rw [h0] at ht2
      simp at ht2
    · exact splitCharAux_no_sep ' ' (name.data.map Char.toLower) []
        (by simp) t ht2.1
  have hprops := joinSpace_props _ hgood
  refine ⟨?_, by rw [hdata]; exact hprops.1, ?_, ?_⟩
  · rw [hdata]
    apply map_eq_self_of_fixed
    intro c hc
    rcases joinSpace_mem _ c hc with rfl | ⟨t, ht, hct⟩
    · rfl
    · have ht2 := List.mem_filter.mp ht
      rcases splitCharAux_subset ' ' (name.data.map Char.toLower) [] t ht2.1 c hct
        with hcs | hacc
      · obtain ⟨x, -, rfl⟩ := List.mem_map.mp hcs
        exact char_toLower_idem x
      · exact absurd hacc (List.not_mem_nil c)
  · rw [hdata]
    intro hh
    exact (hprops.2.1 ' ' hh) rfl
  · rw [hdata]
    intro hh
    exact (hprops.2.2 ' ' hh) rfl
